import Mathlib

/-!
Shallow embedding of `src/convert.py` (xml-to-csv-konop).

The embedding models the XML tree (`Elem`), the item-detection heuristic
(`detect_items`, lines 20-38), the recursive flattener (`iter_leaves`,
lines 40-66, and `flatten_item`, lines 68-87), the header-union and
row-rendering logic of `write_csv` (lines 98-112), and the forced-tag
selection logic of `main` (lines 129-136).

Python dictionaries preserve insertion order, so `counts` in
`detect_items` and `bucket`/`flat` in `flatten_item` are modelled as
lists processed in first-seen key order.
-/

set_option autoImplicit false

namespace Konop

/-- An XML element as produced by `xml.etree.ElementTree`: a tag, an
ordered attribute list, the direct text content (Python `None` is the
empty string, as both trim to empty), and the ordered child elements. -/
inductive Elem where
  | mk (tag : String) (attrib : List (String × String)) (text : String)
       (children : List Elem)

def Elem.tag : Elem → String
  | .mk t _ _ _ => t

def Elem.attrib : Elem → List (String × String)
  | .mk _ a _ _ => a

def Elem.text : Elem → String
  | .mk _ _ x _ => x

def Elem.children : Elem → List Elem
  | .mk _ _ _ cs => cs

/-- Python `str.strip()`: remove leading and trailing whitespace characters.
Modelled directly on the character list of the string so that it is
kernel-computable. -/
def strip (s : String) : String :=
  ⟨((s.data.dropWhile Char.isWhitespace).reverse.dropWhile Char.isWhitespace).reverse⟩

/-- The seen-set loop of `flatten_item` lines 79-84 (and the header loop of
`write_csv` lines 99-105): keep each element's first occurrence, in order. -/
def dedupAux {α : Type} [DecidableEq α] (seen : List α) : List α → List α
  | [] => []
  | x :: xs => if x ∈ seen then dedupAux seen xs else x :: dedupAux (x :: seen) xs

/-- Deduplication keeping first occurrences, starting from an empty seen set. -/
def dedupFirst {α : Type} [DecidableEq α] (l : List α) : List α :=
  dedupAux [] l

/-- Python `sep.join(l)`: empty string on the empty list, otherwise the head
followed by `sep ++ element` for each remaining element. -/
def joinSep (sep : String) : List String → String
  | [] => ""
  | x :: xs => xs.foldl (fun acc y => acc ++ sep ++ y) x

/-- The attribute loop of `iter_leaves` (lines 46-49): one pair per attribute
whose trimmed value is non-empty, key `<pre><tag>@<attr>`, value trimmed. -/
def attrPairs (pre : String) (tag : String) (attrib : List (String × String)) :
    List (String × String) :=
  attrib.filterMap fun p =>
    if strip p.2 = "" then none else some (pre ++ tag ++ "@" ++ p.1, strip p.2)

mutual

/-- The generator `iter_leaves(elem, prefix)` (lines 40-66), as the list of
pairs it yields in order: attribute pairs first; then, for a childless
element, the trimmed text under `<pre><tag>` when non-empty; for an element
with children, the pairs of each child in order, with the prefix extended by
`<tag>_` when the tag is non-empty (Python truthiness of `elem.tag`). -/
def iter_leaves : Elem → String → List (String × String)
  | .mk tag attrib text children, pre =>
    attrPairs pre tag attrib ++
      match children with
      | [] => if strip text = "" then [] else [(pre ++ tag, strip text)]
      | c :: cs =>
          iter_leavesList (c :: cs) (if tag = "" then pre else pre ++ tag ++ "_")
termination_by structural e => e

/-- The pairs yielded for a list of children, in order (the loop of line 61). -/
def iter_leavesList : List Elem → String → List (String × String)
  | [], _ => []
  | c :: cs, pre => iter_leaves c pre ++ iter_leavesList cs pre
termination_by structural l => l

end

/-- The values accumulated for key `k` by the `bucket` defaultdict of
`flatten_item` (lines 72-74): all values of pairs with that key, in order. -/
def bucketVals (pairs : List (String × String)) (k : String) : List String :=
  (pairs.filter fun p => p.1 = k).map Prod.snd

/-- The function `flatten_item(elem)` (lines 68-87): group the pairs of
`iter_leaves(elem, "")` by key (keys in first-seen order), deduplicate each
key's values keeping first occurrences, and join them with `" | "`. -/
def flatten_item (e : Elem) : List (String × String) :=
  let pairs := iter_leaves e ""
  (dedupFirst (pairs.map Prod.fst)).map fun k =>
    (k, joinSep " | " (dedupFirst (bucketVals pairs k)))

mutual

/-- Document order of `root.iter()`: the element itself, then the subtrees of
its children in source order (pre-order). -/
def preorder : Elem → List Elem
  | .mk tag attrib text children =>
      .mk tag attrib text children :: preorderList children
termination_by structural e => e

def preorderList : List Elem → List Elem
  | [] => []
  | c :: cs => preorder c ++ preorderList cs
termination_by structural l => l

end

/-- The `counts` dictionary of `detect_items` (lines 27-29) as an ordered
association list: one entry per distinct direct-child tag, in first-seen
order, with the number of direct children bearing that tag. -/
def tagCounts (children : List Elem) : List (String × Nat) :=
  (dedupFirst (children.map Elem.tag)).map fun t =>
    (t, (children.filter fun c => c.tag = t).length)

/-- One candidate of the nested loops of `detect_items` (lines 26-32):
a `(count, parent, tag)` triple. The list enumerates candidates in the order
the loops visit them: parents in document order, tags in first-seen order. -/
def candList (root : Elem) : List (Nat × Elem × String) :=
  (preorder root).flatMap fun p =>
    (tagCounts p.children).map fun tc => (tc.2, p, tc.1)

/-- One update of `best` (line 31-32): replace only on a strictly greater
count. -/
def bestStep (b : Nat × Option Elem × Option String) (c : Nat × Elem × String) :
    Nat × Option Elem × Option String :=
  if b.1 < c.1 then (c.1, some c.2.1, some c.2.2) else b

/-- The final value of `best` after the traversal of `detect_items`
(lines 25-32), starting from `(0, None, None)`. -/
def bestOf (root : Elem) : Nat × Option Elem × Option String :=
  (candList root).foldl bestStep (0, none, none)

/-- The function `detect_items(root)` (lines 20-38): if no candidate was ever
recorded (`best[2] is None`), fall back to the root's direct children with the
root's tag; otherwise return the winning parent's direct children bearing the
winning tag, in source order, with the winning tag. -/
def detect_items (root : Elem) : List Elem × String :=
  match bestOf root with
  | (_, some p, some t) => ((p.children.filter fun c => c.tag = t), t)
  | _ => (root.children, root.tag)

/-- The item-selection logic of `main` (lines 129-136): with a non-empty
forced tag, take every element in document order whose tag matches; if none
match, warn (the `Bool` component) and fall back to automatic detection.
With no forced tag, use automatic detection directly. -/
def select_items (root : Elem) (force : String) : List Elem × Bool :=
  if force = "" then ((detect_items root).1, false)
  else
    match (preorder root).filter (fun e => e.tag = force) with
    | [] => ((detect_items root).1, true)
    | e :: es => (e :: es, false)

/-- The header loop of `write_csv` (lines 99-105): the union of all rows'
keys, first-seen order, scanning rows in order and keys in row order. -/
def csv_headers (rows : List (List (String × String))) : List String :=
  dedupFirst (rows.flatMap fun r => r.map Prod.fst)

/-- One rendered cell of `write_csv` line 112: `r.get(k, "")`. -/
def renderCell (r : List (String × String)) (k : String) : String :=
  ((r.find? fun p => p.1 = k).map Prod.snd).getD ""

/-- One rendered data row of `write_csv` lines 111-112. -/
def renderRow (headers : List String) (r : List (String × String)) :
    List String :=
  headers.map (renderCell r)

/-- The maximum count among a list of `(count, parent, tag)` candidates
(zero for the empty list). -/
def listMaxCount (l : List (Nat × Elem × String)) : Nat :=
  l.foldr (fun c m => max c.1 m) 0

/-- The globally maximum direct-child same-tag count over all parents of the
tree, as seen by `detect_items`. -/
def maxCand (root : Elem) : Nat :=
  listMaxCount (candList root)

/-- No element of the tree has two direct children sharing a tag. -/
def noRepeatTags (root : Elem) : Prop :=
  ∀ p ∈ preorder root, (p.children.map Elem.tag).Nodup

instance (root : Elem) : Decidable (noRepeatTags root) := by
  unfold noRepeatTags
  infer_instance

mutual

/-- Remove, at every node of the tree, the attributes whose value strips to
the empty string. -/
def dropWsAttrs : Elem → Elem
  | .mk tag attrib text children =>
      .mk tag (attrib.filter fun p => strip p.2 ≠ "") text
        (dropWsAttrsList children)
termination_by structural e => e

def dropWsAttrsList : List Elem → List Elem
  | [] => []
  | c :: cs => dropWsAttrs c :: dropWsAttrsList cs
termination_by structural l => l

end

/-- Example record of the spec's nested-path naming scenario:
`<offer><seller><name>Acme</name></seller></offer>`. -/
def offerEx : Elem :=
  .mk "offer" [] "" [.mk "seller" [] "" [.mk "name" [] "Acme" []]]

/-- Example record of the spec's attribute-emission scenario:
`<price currency="USD">9.99</price>`. -/
def priceEx : Elem :=
  .mk "price" [("currency", "USD")] "9.99" []

/-- Example record of the spec's multi-value merge scenario: a record with
three direct children tagged `image` holding texts `a`, `b`, `a`. -/
def imgEx : Elem :=
  .mk "item" [] "" [.mk "image" [] "a" [], .mk "image" [] "b" [],
    .mk "image" [] "a" []]

/-- Example tree whose root has two direct children with distinct tags. -/
def twoChildEx : Elem :=
  .mk "r" [] "" [.mk "a" [] "1" [], .mk "b" [] "2" []]

/-- Example tree whose root has two tags tied at the maximum count two. -/
def tieEx : Elem :=
  .mk "r" [] "" [.mk "a" [] "1" [], .mk "a" [] "2" [], .mk "b" [] "3" [],
    .mk "b" [] "4" []]

/-- Example tree with one repeated direct-child tag (`product`, count 3)
below an inner parent. -/
def repEx : Elem :=
  .mk "shop" [] ""
    [.mk "items" [] "" [.mk "product" [] "x" [], .mk "product" [] "y" [],
       .mk "product" [] "z" []],
     .mk "meta" [] "m" []]

/-! Lemmas about deduplication, joining, and the candidate fold. -/

theorem mem_dedupAux {α : Type} [DecidableEq α] {x : α} :
    ∀ (l seen : List α), x ∈ dedupAux seen l ↔ x ∈ l ∧ x ∉ seen
  | [], seen => by simp [dedupAux]
  | y :: ys, seen => by
    by_cases hy : y ∈ seen
    · rw [dedupAux, if_pos hy, mem_dedupAux ys seen]
      simp only [List.mem_cons]
      constructor
      · rintro ⟨h1, h2⟩
        exact ⟨Or.inr h1, h2⟩
      · rintro ⟨h1 | h1, h2⟩
        · exact absurd (h1 ▸ hy) h2
        · exact ⟨h1, h2⟩
    · rw [dedupAux, if_neg hy]
      simp only [List.mem_cons, mem_dedupAux ys (y :: seen)]
      constructor
      · rintro (h | ⟨h1, h2⟩)
        · exact ⟨Or.inl h, h ▸ hy⟩
        · exact ⟨Or.inr h1, fun hs => h2 (Or.inr hs)⟩
      · rintro ⟨h1 | h1, h2⟩
        · exact Or.inl h1
        · by_cases hxy : x = y
          · exact Or.inl hxy
          · exact Or.inr ⟨h1, by simp [hxy, h2]⟩

theorem mem_dedupFirst {α : Type} [DecidableEq α] {x : α} {l : List α} :
    x ∈ dedupFirst l ↔ x ∈ l := by
  simp [dedupFirst, mem_dedupAux]

theorem nodup_dedupAux {α : Type} [DecidableEq α] :
    ∀ (l seen : List α), (dedupAux seen l).Nodup
  | [], _ => by simp [dedupAux]
  | y :: ys, seen => by
    by_cases hy : y ∈ seen
    · rw [dedupAux, if_pos hy]
      exact nodup_dedupAux ys seen
    · rw [dedupAux, if_neg hy]
      refine List.nodup_cons.2 ⟨fun hmem => ?_, nodup_dedupAux ys (y :: seen)⟩
      exact ((mem_dedupAux ys (y :: seen)).1 hmem).2 (List.mem_cons_self y seen)

theorem nodup_dedupFirst {α : Type} [DecidableEq α] (l : List α) :
    (dedupFirst l).Nodup :=
  nodup_dedupAux l []

theorem dedupAux_sublist {α : Type} [DecidableEq α] :
    ∀ (l seen : List α), (dedupAux seen l).Sublist l
  | [], _ => by simp [dedupAux]
  | y :: ys, seen => by
    by_cases hy : y ∈ seen
    · rw [dedupAux, if_pos hy]
      exact (dedupAux_sublist ys seen).cons y
    · rw [dedupAux, if_neg hy]
      exact (dedupAux_sublist ys (y :: seen)).cons₂ y

theorem dedupFirst_sublist {α : Type} [DecidableEq α] (l : List α) :
    (dedupFirst l).Sublist l :=
  dedupAux_sublist l []

theorem dedupFirst_ne_nil {α : Type} [DecidableEq α] {l : List α}
    (h : l ≠ []) : dedupFirst l ≠ [] := by
  match l with
  | [] => exact absurd rfl h
  | x :: xs =>
    rw [dedupFirst, dedupAux, if_neg (List.not_mem_nil x)]
    exact List.cons_ne_nil x _

theorem string_eq_empty_of_length_zero {x : String} (h : x.length = 0) :
    x = "" := by
  cases x with
  | mk data =>
    cases data with
    | nil => rfl
    | cons c cs => simp [String.length] at h

theorem joinSep_foldl_length (sep : String) :
    ∀ (xs : List String) (acc : String),
      acc.length ≤ (xs.foldl (fun a y => a ++ sep ++ y) acc).length
  | [], _ => le_refl _
  | y :: ys, acc => by
    refine le_trans ?_ (joinSep_foldl_length sep ys (acc ++ sep ++ y))
    have h : (acc ++ sep ++ y).length = acc.length + sep.length + y.length := by
      simp [String.length_append]
    omega

theorem joinSep_cons_ne_empty {x : String} (xs : List String) (hx : x ≠ "") :
    joinSep " | " (x :: xs) ≠ "" := by
  intro hcon
  rw [joinSep] at hcon
  have h1 := joinSep_foldl_length " | " xs x
  rw [hcon] at h1
  exact hx (string_eq_empty_of_length_zero (Nat.le_zero.1 h1))

theorem listMaxCount_cons (c : Nat × Elem × String) (l : List (Nat × Elem × String)) :
    listMaxCount (c :: l) = max c.1 (listMaxCount l) := rfl

theorem le_listMaxCount {c : Nat × Elem × String} :
    ∀ {l : List (Nat × Elem × String)}, c ∈ l → c.1 ≤ listMaxCount l := by
  intro l h
  induction l with
  | nil => cases h
  | cons d t ih =>
    rw [listMaxCount_cons]
    rcases List.mem_cons.1 h with h1 | h1
    · exact h1 ▸ le_max_left _ _
    · exact le_trans (ih h1) (le_max_right _ _)

theorem listMaxCount_le {l : List (Nat × Elem × String)} {n : Nat}
    (h : ∀ c ∈ l, c.1 ≤ n) : listMaxCount l ≤ n := by
  induction l with
  | nil => exact Nat.zero_le n
  | cons d t ih =>
    rw [listMaxCount_cons]
    exact max_le (h d (List.mem_cons_self d t)) (ih fun c hc => h c (List.mem_cons_of_mem d hc))

theorem foldl_bestStep_of_le (l : List (Nat × Elem × String)) :
    ∀ (b : Nat × Option Elem × Option String),
      (∀ c ∈ l, c.1 ≤ b.1) → l.foldl bestStep b = b := by
  induction l with
  | nil => intro b _; rfl
  | cons d t ih =>
    intro b h
    rw [List.foldl_cons, bestStep, if_neg (Nat.not_lt.2 (h d (List.mem_cons_self d t)))]
    exact ih b fun c hc => h c (List.mem_cons_of_mem d hc)

theorem foldl_bestStep_find (l : List (Nat × Elem × String)) :
    ∀ (b : Nat × Option Elem × Option String), b.1 < listMaxCount l →
      ∃ c, l.find? (fun d => listMaxCount l ≤ d.1) = some c ∧
        l.foldl bestStep b = (c.1, some c.2.1, some c.2.2) ∧
        c.1 = listMaxCount l := by
  induction l with
  | nil => intro b hb; simp [listMaxCount] at hb
  | cons d t ih =>
    intro b hb
    by_cases hd : listMaxCount (d :: t) ≤ d.1
    · have hdm : d.1 = listMaxCount (d :: t) :=
        le_antisymm (le_listMaxCount (List.mem_cons_self d t)) hd
      refine ⟨d, List.find?_cons_of_pos _ (by simpa using hd), ?_, hdm⟩
      rw [List.foldl_cons, bestStep, if_pos (lt_of_lt_of_le hb hd)]
      exact foldl_bestStep_of_le t _ fun c hc =>
        le_trans (le_listMaxCount (List.mem_cons_of_mem d hc)) hd
    · push_neg at hd
      have hmax : listMaxCount (d :: t) = listMaxCount t := by
        rw [listMaxCount_cons]
        rcases le_total d.1 (listMaxCount t) with h1 | h1
        · exact max_eq_right h1
        · exact absurd hd (not_lt.2 (by rw [listMaxCount_cons, max_eq_left h1]))
      rw [hmax] at hb hd ⊢
      have hb' : (bestStep b d).1 < listMaxCount t := by
        rw [bestStep]
        split
        · exact hd
        · exact hb
      obtain ⟨c, hfind, hfold, hcm⟩ := ih (bestStep b d) hb'
      refine ⟨c, ?_, ?_, hcm⟩
      · rw [List.find?_cons_of_neg _ (by simpa using not_le.2 hd)]
        exact hfind
      · rw [List.foldl_cons]
        exact hfold

theorem bestOf_spec (root : Elem) (h : 0 < maxCand root) :
    ∃ c, (candList root).find? (fun d => maxCand root ≤ d.1) = some c ∧
      bestOf root = (c.1, some c.2.1, some c.2.2) ∧ c.1 = maxCand root :=
  foldl_bestStep_find (candList root) (0, none, none) h

/-! Lemmas about the candidate list of `detect_items`. -/

theorem candList_sound {root : Elem} {n : Nat} {p : Elem} {t : String}
    (h : (n, p, t) ∈ candList root) :
    p ∈ preorder root ∧ t ∈ p.children.map Elem.tag ∧
      n = (p.children.filter fun c => c.tag = t).length := by
  simp only [candList, List.mem_flatMap] at h
  obtain ⟨q, hq, hmem⟩ := h
  simp only [tagCounts, List.map_map, List.mem_map, Function.comp,
    Prod.mk.injEq] at hmem
  obtain ⟨u, hu, h1, h2, h3⟩ := hmem
  subst h1 h2 h3
  exact ⟨hq, mem_dedupFirst.1 hu, rfl⟩

theorem candList_complete {root p c : Elem} (hp : p ∈ preorder root)
    (hc : c ∈ p.children) :
    ((p.children.filter fun d => d.tag = c.tag).length, p, c.tag) ∈
      candList root := by
  simp only [candList, List.mem_flatMap]
  refine ⟨p, hp, ?_⟩
  simp only [tagCounts, List.map_map, List.mem_map, Function.comp,
    Prod.mk.injEq]
  exact ⟨c.tag, mem_dedupFirst.2 (List.mem_map_of_mem Elem.tag hc), by simp⟩

theorem candList_count_pos {root : Elem} {n : Nat} {p : Elem} {t : String}
    (h : (n, p, t) ∈ candList root) : 1 ≤ n := by
  obtain ⟨_, ht, hn⟩ := candList_sound h
  obtain ⟨c, hc, hct⟩ := List.mem_map.1 ht
  have hmem : c ∈ p.children.filter fun d => d.tag = t :=
    List.mem_filter.2 ⟨hc, by simp [hct]⟩
  have := List.length_pos_of_mem hmem
  omega

theorem self_mem_preorder (root : Elem) : root ∈ preorder root := by
  cases root with
  | mk t a x cs => rw [preorder]; exact List.mem_cons_self _ _

theorem maxCand_pos {root : Elem} {p c : Elem} (hp : p ∈ preorder root)
    (hc : c ∈ p.children) : 0 < maxCand root := by
  have h := le_listMaxCount (candList_complete hp hc)
  have hpos := List.length_pos_of_mem
    (List.mem_filter.2 ⟨hc, by simp⟩ :
      c ∈ p.children.filter fun d => d.tag = c.tag)
  rw [maxCand]
  omega

theorem filter_length_le_one_of_nodup {cs : List Elem} {t : String}
    (h : (cs.map Elem.tag).Nodup) :
    (cs.filter fun c => c.tag = t).length ≤ 1 := by
  induction cs with
  | nil => simp
  | cons c cs ih =>
    rw [List.map_cons, List.nodup_cons] at h
    by_cases hct : c.tag = t
    · have hnil : cs.filter (fun c => c.tag = t) = [] := by
        rw [List.filter_eq_nil_iff]
        intro d hd
        simp only [decide_eq_true_eq]
        intro hdt
        exact h.1 (hct ▸ hdt ▸ List.mem_map_of_mem Elem.tag hd)
      simp [List.filter_cons, hct, hnil]
    · simp only [List.filter_cons, hct]
      simpa [hct] using ih h.2

theorem filter_eq_singleton_of_head {c : Elem} {cs : List Elem} {t : String}
    (hct : c.tag = t)
    (hlen : ((c :: cs).filter fun d => d.tag = t).length ≤ 1) :
    (c :: cs).filter (fun d => d.tag = t) = [c] := by
  rw [List.filter_cons, if_pos (by simp [hct])] at hlen ⊢
  have : (cs.filter fun d => d.tag = t) = [] := by
    rw [List.length_cons] at hlen
    exact List.eq_nil_of_length_eq_zero (by omega)
  rw [this]

theorem find?_map_pair (f : String → String) (k : String) :
    ∀ (keys : List String), k ∈ keys →
      (keys.map fun u => (u, f u)).find? (fun p => p.1 = k) = some (k, f k)
  | [], h => absurd h (List.not_mem_nil k)
  | u :: us, h => by
    by_cases hu : u = k
    · subst hu
      exact List.find?_cons_of_pos _ (by simp)
    · rw [List.map_cons, List.find?_cons_of_neg _ (by simp [hu])]
      exact find?_map_pair f k us (by
        rcases List.mem_cons.1 h with h1 | h1
        · exact absurd h1.symm hu
        · exact h1)

/-! Value facts about `iter_leaves`, proved by mutual structural induction. -/

theorem attrPairs_val_ne {pre tag : String} {a : List (String × String)}
    {k v : String} (h : (k, v) ∈ attrPairs pre tag a) : v ≠ "" := by
  simp only [attrPairs, List.mem_filterMap] at h
  obtain ⟨p, _, hp⟩ := h
  by_cases hs : strip p.2 = ""
  · rw [if_pos hs] at hp
    exact absurd hp (Option.noConfusion)
  · rw [if_neg hs] at hp
    obtain ⟨-, h2⟩ := Prod.mk.injEq .. ▸ Option.some.inj hp
    exact h2 ▸ hs

/-- Unfolding equation of `iter_leaves` on a childless element. -/
theorem iter_leaves_nil (tag : String) (attrib : List (String × String))
    (text pre : String) :
    iter_leaves (.mk tag attrib text []) pre =
      attrPairs pre tag attrib ++
        (if strip text = "" then [] else [(pre ++ tag, strip text)]) := rfl

/-- Unfolding equation of `iter_leaves` on an element with children. -/
theorem iter_leaves_cons (tag : String) (attrib : List (String × String))
    (text pre : String) (c : Elem) (cs : List Elem) :
    iter_leaves (.mk tag attrib text (c :: cs)) pre =
      attrPairs pre tag attrib ++
        iter_leavesList (c :: cs) (if tag = "" then pre else pre ++ tag ++ "_") := rfl

theorem iter_leavesList_nil (pre : String) : iter_leavesList [] pre = [] := rfl

theorem iter_leavesList_cons (c : Elem) (cs : List Elem) (pre : String) :
    iter_leavesList (c :: cs) pre =
      iter_leaves c pre ++ iter_leavesList cs pre := rfl

theorem iter_leaves_val_ne_all :
    (∀ (e : Elem) (pre : String), ∀ k v, (k, v) ∈ iter_leaves e pre → v ≠ "") ∧
    (∀ (cs : List Elem) (pre : String), ∀ k v, (k, v) ∈ iter_leavesList cs pre → v ≠ "") := by
  refine iter_leaves.mutual_induct
    (fun e pre => ∀ k v, (k, v) ∈ iter_leaves e pre → v ≠ "")
    (fun cs pre => ∀ k v, (k, v) ∈ iter_leavesList cs pre → v ≠ "")
    ?_ ?_ ?_
  · intro tag attrib text children pre ih k v h
    cases children with
    | nil =>
      rw [iter_leaves_nil] at h
      rcases List.mem_append.1 h with h1 | h1
      · exact attrPairs_val_ne h1
      · by_cases hs : strip text = ""
        · rw [if_pos hs] at h1
          exact absurd h1 (List.not_mem_nil _)
        · rw [if_neg hs] at h1
          rcases List.mem_cons.1 h1 with h2 | h2
          · obtain ⟨-, h3⟩ := Prod.mk.injEq .. ▸ h2
            exact h3 ▸ hs
          · exact absurd h2 (List.not_mem_nil _)
    | cons c cs =>
      rw [iter_leaves_cons] at h
      rcases List.mem_append.1 h with h1 | h1
      · exact attrPairs_val_ne h1
      · exact ih k v h1
  · intro pre k v h
    rw [iter_leavesList_nil] at h
    exact absurd h (List.not_mem_nil _)
  · intro c cs pre ih1 ih2 k v h
    rw [iter_leavesList_cons] at h
    rcases List.mem_append.1 h with h1 | h1
    · exact ih1 k v h1
    · exact ih2 k v h1

theorem iter_leaves_val_ne {e : Elem} {pre k v : String}
    (h : (k, v) ∈ iter_leaves e pre) : v ≠ "" :=
  iter_leaves_val_ne_all.1 e pre k v h

/-! Removing whitespace-only attributes does not change the flattening. -/

theorem filterMap_filter_eq {α β : Type} (f : α → Option β) (q : α → Bool)
    (hq : ∀ x, q x = false → f x = none) :
    ∀ l : List α, (l.filter q).filterMap f = l.filterMap f
  | [] => rfl
  | p :: ps => by
    by_cases hp : q p = true
    · rw [List.filter_cons, if_pos hp]
      rcases hf : f p with _ | b
      · rw [List.filterMap_cons_none hf, List.filterMap_cons_none hf,
          filterMap_filter_eq f q hq ps]
      · rw [List.filterMap_cons_some hf, List.filterMap_cons_some hf,
          filterMap_filter_eq f q hq ps]
    · rw [List.filter_cons, if_neg hp,
        List.filterMap_cons_none (hq p (Bool.not_eq_true _ ▸ hp)),
        filterMap_filter_eq f q hq ps]

theorem attrPairs_filter (pre tag : String) (a : List (String × String)) :
    attrPairs pre tag (a.filter fun p => strip p.2 ≠ "") = attrPairs pre tag a := by
  refine filterMap_filter_eq _ _ (fun x hx => ?_) a
  have hs : strip x.2 = "" := not_ne_iff.1 (of_decide_eq_false hx)
  simp [hs]

theorem dropWsAttrs_mk (tag : String) (a : List (String × String))
    (x : String) (cs : List Elem) :
    dropWsAttrs (.mk tag a x cs) =
      .mk tag (a.filter fun p => strip p.2 ≠ "") x (dropWsAttrsList cs) := rfl

theorem dropWsAttrsList_nil : dropWsAttrsList [] = [] := rfl

theorem dropWsAttrsList_cons (c : Elem) (cs : List Elem) :
    dropWsAttrsList (c :: cs) = dropWsAttrs c :: dropWsAttrsList cs := rfl

theorem iter_leaves_dropWs_all :
    (∀ (e : Elem) (pre : String),
        iter_leaves (dropWsAttrs e) pre = iter_leaves e pre) ∧
    (∀ (cs : List Elem) (pre : String),
        iter_leavesList (dropWsAttrsList cs) pre = iter_leavesList cs pre) := by
  refine iter_leaves.mutual_induct
    (fun e pre => iter_leaves (dropWsAttrs e) pre = iter_leaves e pre)
    (fun cs pre => iter_leavesList (dropWsAttrsList cs) pre = iter_leavesList cs pre)
    ?_ ?_ ?_
  · intro tag attrib text children pre ih
    cases children with
    | nil =>
      rw [dropWsAttrs_mk, dropWsAttrsList_nil, iter_leaves_nil, iter_leaves_nil,
        attrPairs_filter]
    | cons c cs =>
      have ih2 : iter_leavesList (dropWsAttrsList (c :: cs))
          (if tag = "" then pre else pre ++ tag ++ "_") =
          iter_leavesList (c :: cs)
          (if tag = "" then pre else pre ++ tag ++ "_") := ih
      rw [dropWsAttrsList_cons] at ih2
      rw [dropWsAttrs_mk, dropWsAttrsList_cons, iter_leaves_cons,
        iter_leaves_cons, attrPairs_filter, ih2]
  · intro _
    rfl
  · intro c cs pre ih1 ih2
    rw [dropWsAttrsList_cons, iter_leavesList_cons, iter_leavesList_cons,
      ih1, ih2]

/-! Facts about `flatten_item`. -/

theorem flatten_item_eq (e : Elem) :
    flatten_item e = (dedupFirst ((iter_leaves e "").map Prod.fst)).map fun k =>
      (k, joinSep " | " (dedupFirst (bucketVals (iter_leaves e "") k))) := rfl

theorem flatten_item_dropWs (e : Elem) :
    flatten_item (dropWsAttrs e) = flatten_item e := by
  rw [flatten_item_eq, flatten_item_eq, iter_leaves_dropWs_all.1]

theorem flatten_item_find {e : Elem} {k : String}
    (hk : k ∈ (iter_leaves e "").map Prod.fst) :
    (flatten_item e).find? (fun p => p.1 = k) =
      some (k, joinSep " | " (dedupFirst (bucketVals (iter_leaves e "") k))) := by
  rw [flatten_item_eq]
  exact find?_map_pair _ k _ (mem_dedupFirst.2 hk)

theorem flatten_item_val_ne {e : Elem} {k v : String}
    (h : (k, v) ∈ flatten_item e) : v ≠ "" := by
  rw [flatten_item_eq] at h
  obtain ⟨u, hu, hequ⟩ := List.mem_map.1 h
  obtain ⟨h1, h2⟩ := Prod.mk.injEq .. ▸ hequ
  obtain ⟨p, hp, hpk⟩ := List.mem_map.1 (mem_dedupFirst.1 hu)
  have hb : p.2 ∈ bucketVals (iter_leaves e "") u :=
    List.mem_map_of_mem Prod.snd (List.mem_filter.2 ⟨hp, by simp [hpk]⟩)
  cases hset : dedupFirst (bucketVals (iter_leaves e "") u) with
  | nil =>
    have := mem_dedupFirst.2 hb
    rw [hset] at this
    exact absurd this (List.not_mem_nil _)
  | cons x xs =>
    have hx : x ∈ bucketVals (iter_leaves e "") u :=
      mem_dedupFirst.1 (hset ▸ List.mem_cons_self x xs)
    obtain ⟨q, hq, hqx⟩ := List.mem_map.1 hx
    have hq' : (q.1, q.2) ∈ iter_leaves e "" := (List.mem_filter.1 hq).1
    have hxne : x ≠ "" := hqx ▸ iter_leaves_val_ne hq'
    rw [← h2, hset]
    exact joinSep_cons_ne_empty xs hxne

/-! Unfolding equations for `preorder`, `candList` and `detect_items`. -/

theorem preorder_mk (t : String) (a : List (String × String)) (x : String)
    (cs : List Elem) :
    preorder (.mk t a x cs) = .mk t a x cs :: preorderList cs := rfl

theorem preorderList_nil : preorderList ([] : List Elem) = [] := rfl

theorem preorderList_cons (c : Elem) (cs : List Elem) :
    preorderList (c :: cs) = preorder c ++ preorderList cs := rfl

theorem candList_mk_nil (t : String) (a : List (String × String)) (x : String) :
    candList (.mk t a x []) = [] := rfl

theorem candList_mk_cons (t : String) (a : List (String × String)) (x : String)
    (c : Elem) (cs : List Elem) :
    candList (.mk t a x (c :: cs)) =
      (((c :: cs).filter fun d => d.tag = c.tag).length,
          Elem.mk t a x (c :: cs), c.tag) ::
        ((((dedupAux [c.tag] (cs.map Elem.tag)).map fun u =>
            (u, ((c :: cs).filter fun d => d.tag = u).length)).map fun tc =>
              (tc.2, Elem.mk t a x (c :: cs), tc.1)) ++
          ((preorderList (c :: cs)).flatMap fun p =>
            (tagCounts p.children).map fun tc => (tc.2, p, tc.1))) := rfl

theorem detect_items_of_bestOf {root : Elem} {n : Nat} {p : Elem} {t : String}
    (h : bestOf root = (n, some p, some t)) :
    detect_items root = ((p.children.filter fun c => c.tag = t), t) := by
  rw [detect_items.eq_def, h]

theorem detect_items_of_bestOf_none {root : Elem}
    (h : bestOf root = (0, none, none)) :
    detect_items root = (root.children, root.tag) := by
  rw [detect_items.eq_def, h]

/-! The claims. -/

/-- Claim C1, counterexample: flattening the record
`<offer><seller><name>Acme</name></seller></offer>` does not produce the
key `seller_name`: the record root's own tag is not excluded from the
composite-key prefix. -/
theorem claim_C1_counterexample : ("seller_name", "Acme") ∉ flatten_item offerEx := by
  decide

/-- Claim C1, amended: flattening the record
`<offer><seller><name>Acme</name></seller></offer>` produces exactly the
key `offer_seller_name` mapped to `Acme`: the record root's own tag is
included as the first component of the composite-key prefix, and every
ancestor tag from the record root (inclusive) down to the parent of the
leaf is concatenated with the underscore separator. -/
theorem claim_C1 : flatten_item offerEx = [("offer_seller_name", "Acme")] := by
  decide

/-- Claim C2, counterexample: for the tree whose root `r` has the two
direct children `<a>1</a>` and `<b>2</b>` (no repeated direct-child tag
anywhere), `detect_items` does not return the root's direct children with
the root's tag. -/
theorem claim_C2_counterexample :
    detect_items twoChildEx ≠ (twoChildEx.children, twoChildEx.tag) :=
  fun hq => absurd (congrArg Prod.snd hq) (by decide)

/-- Claim C2, amended: for every tree in which no element has two direct
children sharing a tag, `detect_items` falls back to the root's direct
children (with the root's tag) only when the root has no children at all;
when the root has at least one child, the first candidate recorded is
`(1, root, first child's tag)` and is never displaced, so `detect_items`
returns exactly the singleton of the root's first direct child, with that
child's tag. -/
theorem claim_C2 (root : Elem) (h : noRepeatTags root) :
    (root.children = [] → detect_items root = ([], root.tag)) ∧
    ∀ c cs, root.children = c :: cs → detect_items root = ([c], c.tag) := by
  cases root with
  | mk t a x children =>
    constructor
    · intro hc
      have hc' : children = [] := hc
      subst hc'
      have hb : bestOf (Elem.mk t a x []) = (0, none, none) := by
        rw [bestOf, candList_mk_nil]
        rfl
      exact detect_items_of_bestOf_none hb
    · intro c cs hc
      have hc' : children = c :: cs := hc
      subst hc'
      have hub : ∀ d ∈ candList (Elem.mk t a x (c :: cs)), d.1 ≤ 1 := by
        rintro ⟨n, p, u⟩ hd
        obtain ⟨hp, -, hn⟩ := candList_sound hd
        exact hn ▸ filter_length_le_one_of_nodup (h p hp)
      have hM_le : maxCand (Elem.mk t a x (c :: cs)) ≤ 1 := listMaxCount_le hub
      have hcmem : c ∈ (c :: cs) := List.mem_cons_self c cs
      have hcf : c ∈ (c :: cs).filter fun d => d.tag = c.tag :=
        List.mem_filter.2 ⟨hcmem, by simp⟩
      have hlen_ge : 1 ≤ ((c :: cs).filter fun d => d.tag = c.tag).length :=
        List.length_pos_of_mem hcf
      have hlen_le : ((c :: cs).filter fun d => d.tag = c.tag).length ≤ 1 :=
        filter_length_le_one_of_nodup
          (h (Elem.mk t a x (c :: cs)) (self_mem_preorder _))
      have hlen : ((c :: cs).filter fun d => d.tag = c.tag).length = 1 :=
        le_antisymm hlen_le hlen_ge
      have hmem_head :
          (((c :: cs).filter fun d => d.tag = c.tag).length,
            Elem.mk t a x (c :: cs), c.tag) ∈
            candList (Elem.mk t a x (c :: cs)) :=
        candList_complete (self_mem_preorder _) hcmem
      have hM_ge : 1 ≤ maxCand (Elem.mk t a x (c :: cs)) :=
        hlen ▸ le_listMaxCount hmem_head
      have hM : maxCand (Elem.mk t a x (c :: cs)) = 1 :=
        le_antisymm hM_le hM_ge
      obtain ⟨cnd, hfind, hbest, hcnt⟩ :=
        bestOf_spec (Elem.mk t a x (c :: cs)) (by omega)
      rw [candList_mk_cons,
        List.find?_cons_of_pos _ (by simp [hM, hlen])] at hfind
      obtain rfl :
          cnd = (((c :: cs).filter fun d => d.tag = c.tag).length,
            Elem.mk t a x (c :: cs), c.tag) :=
        (Option.some.inj hfind).symm
      have hdet := detect_items_of_bestOf hbest
      rw [hdet]
      show ((c :: cs).filter (fun d => d.tag = c.tag), c.tag) = ([c], c.tag)
      rw [filter_eq_singleton_of_head rfl hlen_le]

/-- Claim C2, witness: on the two-child example, the amended claim
evaluates to the singleton of the first child with tag `a`. -/
theorem claim_C2_witness :
    detect_items twoChildEx = ([Elem.mk "a" [] "1" []], "a") :=
  (claim_C2 twoChildEx (by decide)).2 (Elem.mk "a" [] "1" [])
    [Elem.mk "b" [] "2" []] rfl

/-- Claim C3: for every tree containing a parent whose direct children
repeat a tag, `detect_items` returns a non-empty sequence, its length is an
upper bound for every parent's direct-child same-tag count (and is itself
such a count, so it equals the global maximum), every returned element is a
direct child of the winning parent bearing the winning tag (the result is
the filter of the winning parent's children by the winning tag, hence in
source order), and every returned element bears the returned tag. -/
theorem claim_C3 (root : Elem)
    (h : ∃ p ∈ preorder root, ∃ c ∈ p.children,
        2 ≤ (p.children.filter fun d => d.tag = c.tag).length) :
    (detect_items root).1 ≠ [] ∧
    (∀ p ∈ preorder root, ∀ c ∈ p.children,
        (p.children.filter fun d => d.tag = c.tag).length ≤
          (detect_items root).1.length) ∧
    (∃ p ∈ preorder root, (detect_items root).1 =
        p.children.filter fun d => d.tag = (detect_items root).2) ∧
    ∀ e ∈ (detect_items root).1, e.tag = (detect_items root).2 := by
  obtain ⟨p₀, hp₀, c₀, hc₀, h2⟩ := h
  have hM2 : 2 ≤ maxCand root :=
    le_trans h2 (le_listMaxCount (candList_complete hp₀ hc₀))
  obtain ⟨cnd, hfind, hbest, hcnt⟩ := bestOf_spec root (by omega)
  rcases cnd with ⟨n, p, u⟩
  obtain ⟨hp, hu, hn⟩ := candList_sound (List.mem_of_find?_eq_some hfind)
  have hdet : detect_items root = ((p.children.filter fun d => d.tag = u), u) :=
    detect_items_of_bestOf hbest
  have hlen : (p.children.filter fun d => d.tag = u).length = maxCand root := by
    rw [← hn]
    exact hcnt
  refine ⟨?_, ?_, ?_, ?_⟩
  · rw [hdet]
    intro hnil
    simp only [] at hnil
    rw [hnil] at hlen
    simp at hlen
    omega
  · intro q hq d hd
    have hle : (q.children.filter fun e => e.tag = d.tag).length ≤ maxCand root :=
      le_listMaxCount (candList_complete hq hd)
    rw [hdet]
    simpa [hlen] using hle
  · refine ⟨p, hp, ?_⟩
    rw [hdet]
  · intro e he
    rw [hdet] at he ⊢
    exact of_decide_eq_true (List.mem_filter.1 he).2

/-- Claim C3, witness: on a tree with three `product` children under an
inner parent, `detect_items` returns a non-empty sequence. -/
theorem claim_C3_witness : (detect_items repEx).1 ≠ [] :=
  (claim_C3 repEx (by decide)).1

/-- Claim C4: when two or more `(parent, tag)` candidates tie on the
maximum direct-child same-tag count, the final best of `detect_items` is
the first candidate (in pre-order traversal of parents, tags in
first-occurrence order among a parent's children) whose count reaches the
maximum — the tracked best being replaced only on a strictly greater
count — and the result is that candidate's filtered children and tag; the
function is pure, so the outcome is the same on every run. -/
theorem claim_C4 (root : Elem)
    (h : 2 ≤ (candList root).countP fun d => d.1 = maxCand root) :
    ∃ cnd, (candList root).find? (fun d => maxCand root ≤ d.1) = some cnd ∧
      cnd.1 = maxCand root ∧
      bestOf root = (cnd.1, some cnd.2.1, some cnd.2.2) ∧
      detect_items root =
        ((cnd.2.1.children.filter fun d => d.tag = cnd.2.2), cnd.2.2) := by
  have hpos : 0 < (candList root).countP fun d => d.1 = maxCand root := by omega
  obtain ⟨d, hd, hdp⟩ := List.countP_pos_iff.1 hpos
  have hd1 : 1 ≤ d.1 := candList_count_pos hd
  have hM : 0 < maxCand root := by
    have hde : d.1 = maxCand root := of_decide_eq_true hdp
    omega
  obtain ⟨cnd, hfind, hbest, hcnt⟩ := bestOf_spec root hM
  rcases cnd with ⟨n, p, u⟩
  exact ⟨(n, p, u), hfind, hcnt, hbest, detect_items_of_bestOf hbest⟩

/-- Claim C4, witness: on the tie example (tags `a` and `b` both repeated
twice under the root), the winner is the first candidate, tag `a`. -/
theorem claim_C4_witness :
    detect_items tieEx = ((tieEx.children.filter fun d => d.tag = "a"), "a") := by
  obtain ⟨cnd, hfind, hcnt, hbest, hdet⟩ := claim_C4 tieEx (by decide)
  have h2 : (candList tieEx).find? (fun d => maxCand tieEx ≤ d.1) =
      some (2, tieEx, "a") := rfl
  rw [h2] at hfind
  obtain rfl : cnd = (2, tieEx, "a") := (Option.some.inj hfind).symm
  exact hdet

/-- Claim C5: for every record whose flattening yields at least two
candidate fields with the same composite key, the Flat Row maps that key to
the candidate values in first-seen order, with exact-duplicate strings
removed (keeping the first occurrence of each), joined with the literal
separator `" | "`; in particular a record with three sibling `image`
elements holding texts `a`, `b`, `a` flattens that key to `a | b`. -/
theorem claim_C5 (e : Elem) (k : String)
    (h : 2 ≤ ((iter_leaves e "").filter fun p => p.1 = k).length) :
    (flatten_item e).find? (fun p => p.1 = k) =
      some (k, joinSep " | " (dedupFirst (bucketVals (iter_leaves e "") k))) ∧
    flatten_item imgEx = [("item_image", "a | b")] := by
  constructor
  · apply flatten_item_find
    have hpos : 0 < ((iter_leaves e "").filter fun p => p.1 = k).length := by
      omega
    obtain ⟨q, hq⟩ := List.exists_mem_of_length_pos hpos
    have hq1 := List.mem_filter.1 hq
    have hqk : q.1 = k := of_decide_eq_true hq1.2
    exact hqk ▸ List.mem_map_of_mem Prod.fst hq1.1
  · decide

/-- Claim C5, witness: the image example evaluates to the merged value. -/
theorem claim_C5_witness :
    (flatten_item imgEx).find? (fun p => p.1 = "item_image") =
      some ("item_image", "a | b") :=
  (claim_C5 imgEx "item_image" (by decide)).1

/-- Claim C6: flattening the record `<price currency="USD">9.99</price>`
yields exactly the two fields `price@currency = USD` (attribute key built
as the owning element's tag-based prefix plus `@` plus the attribute name)
and `price = 9.99` (childless element with non-empty trimmed text emits the
trimmed text under the prefix plus its own tag), in that order. -/
theorem claim_C6 :
    flatten_item priceEx = [("price@currency", "USD"), ("price", "9.99")] := by
  decide

/-- Claim C7: an attribute whose value strips to the empty string is never
emitted: removing all whitespace-only-valued attributes from a tree changes
neither the pairs yielded by `iter_leaves` nor the Flat Row produced by
`flatten_item`, and an element whose only attribute is whitespace-only
(with no children and no text) flattens to the empty row, so the
corresponding `@`-key is absent rather than present with an empty value. -/
theorem claim_C7 :
    (∀ (e : Elem) (pre : String),
        iter_leaves (dropWsAttrs e) pre = iter_leaves e pre) ∧
    (∀ e : Elem, flatten_item (dropWsAttrs e) = flatten_item e) ∧
    flatten_item (Elem.mk "p" [("lang", "   ")] "" []) = [] :=
  ⟨iter_leaves_dropWs_all.1, flatten_item_dropWs, by decide⟩

/-- Claim C8: with a non-empty forced tag, if no element of the tree bears
that tag, the run warns (the `Bool` flag) and returns exactly what
automatic detection returns on the same tree; if at least one element
matches, all matching elements anywhere in the tree are returned in
document order, with no warning. -/
theorem claim_C8 (root : Elem) (force : String) (h : force ≠ "") :
    (((preorder root).filter fun e => e.tag = force) = [] →
        select_items root force = ((detect_items root).1, true)) ∧
    ∀ e es, ((preorder root).filter fun e => e.tag = force) = e :: es →
        select_items root force = (e :: es, false) := by
  constructor
  · intro hfil
    rw [select_items, if_neg h, hfil]
  · intro e es hfil
    rw [select_items, if_neg h, hfil]

/-- Claim C8, witness: on the tie example, forcing an absent tag `zzz`
warns and falls back to automatic detection; forcing the present tag `b`
returns both `b` elements in document order. -/
theorem claim_C8_witness :
    select_items tieEx "zzz" = ((detect_items tieEx).1, true) ∧
    select_items tieEx "b" =
      ([Elem.mk "b" [] "3" [], Elem.mk "b" [] "4" []], false) :=
  ⟨(claim_C8 tieEx "zzz" (by decide)).1 rfl,
   (claim_C8 tieEx "b" (by decide)).2 (Elem.mk "b" [] "3" [])
     [Elem.mk "b" [] "4" []] rfl⟩

/-- Claim C9: the Header Set is the deduplicated union of all rows' keys in
first-seen order — a key is a header iff some row carries it, the headers
are duplicate-free and form a subsequence of the concatenated key scan — a
row lacking a header key renders that cell as the empty string, and on the
rows with key sets `{a,b}` then `{b,c}` the headers are `[a,b,c]`, with
row 1's `c` cell and row 2's `a` cell both empty. -/
theorem claim_C9 :
    (∀ (rows : List (List (String × String))) (k : String),
        k ∈ csv_headers rows ↔ ∃ r ∈ rows, k ∈ r.map Prod.fst) ∧
    (∀ rows : List (List (String × String)), (csv_headers rows).Nodup) ∧
    (∀ rows : List (List (String × String)),
        (csv_headers rows).Sublist (rows.flatMap fun r => r.map Prod.fst)) ∧
    (∀ (r : List (String × String)) (k : String),
        (∀ p ∈ r, p.1 ≠ k) → renderCell r k = "") ∧
    csv_headers [[("a", "1"), ("b", "2")], [("b", "3"), ("c", "4")]] =
      ["a", "b", "c"] ∧
    renderRow ["a", "b", "c"] [("a", "1"), ("b", "2")] = ["1", "2", ""] ∧
    renderRow ["a", "b", "c"] [("b", "3"), ("c", "4")] = ["", "3", "4"] := by
  refine ⟨?_, ?_, ?_, ?_, by decide, by decide, by decide⟩
  · intro rows k
    simp [csv_headers, mem_dedupFirst, List.mem_flatMap]
  · intro rows
    exact nodup_dedupFirst _
  · intro rows
    exact dedupFirst_sublist _
  · intro r k hk
    rw [renderCell]
    cases hfind : r.find? fun p => p.1 = k with
    | none => rfl
    | some q =>
      have hq1 := @List.find?_some (String × String)
        (fun p => decide (p.1 = k)) q r hfind
      have hqk : q.1 = k := of_decide_eq_true hq1
      exact absurd hqk (hk q (List.mem_of_find?_eq_some hfind))

/-- Claim C9, witness: a row without key `a` renders that cell empty. -/
theorem claim_C9_witness : renderCell [("b", "3"), ("c", "4")] "a" = "" :=
  claim_C9.2.2.2.1 [("b", "3"), ("c", "4")] "a" (by decide)

/-- Claim C10: every value of a Flat Row is a non-empty string — only
non-empty stripped attribute values and non-empty stripped leaf texts are
collected, and merged values are joins of non-empty survivors — and an
element with no attributes, no child elements and whitespace-only text
flattens to the empty mapping. -/
theorem claim_C10 (e : Elem) :
    (∀ k v, (k, v) ∈ flatten_item e → v ≠ "") ∧
    (e.attrib = [] → e.children = [] → strip e.text = "" →
      flatten_item e = []) := by
  constructor
  · intro k v hkv
    exact flatten_item_val_ne hkv
  · intro ha hc ht
    cases e with
    | mk t a x cs =>
      have ha' : a = [] := ha
      have hc' : cs = [] := hc
      have ht' : strip x = "" := ht
      subst ha' hc'
      rw [flatten_item_eq, iter_leaves_nil, if_pos ht']
      rfl

/-- Claim C10, witness: the value `9.99` of the price example is non-empty,
and a childless, attribute-free element with whitespace-only text flattens
to the empty row. -/
theorem claim_C10_witness :
    ("9.99" : String) ≠ "" ∧ flatten_item (Elem.mk "q" [] "  " []) = [] :=
  ⟨(claim_C10 priceEx).1 "price" "9.99" (by decide),
   (claim_C10 (Elem.mk "q" [] "  " [])).2 rfl rfl (by decide)⟩

end Konop
